import Mathlib

/-
  Verification of the Incremental Relationship Graph Engine
  (mc-explorer-client/src/SchemaBuilder.js).

  The JavaScript source is shallowly embedded: plain objects become
  structures, the JS Map becomes an insertion-ordered association list,
  JS Set becomes a duplicate-free insertion-ordered list, mutation of
  records referenced from the map becomes functional update of the map
  entry, and the asynchronous fetch collaborator becomes a function
  String to Option Graph (none models a thrown or failed fetch).  The
  fan-in arrival order of concurrent fetches in the recursive expansion
  is determinized to frontier order, matching the single-threaded
  event-loop semantics.
-/

namespace MCExplorer

/-- Identity fields accessed by dedupeById: the source reads
the optional field chain el?.data?.id and the optional field el?.id. -/
class GetId (α : Type) where
  dataId : α → Option String
  topId : α → Option String

/-- Fallback to the top-level id field: the JS expression el?.id,
where the empty string is falsy and so yields no id. -/
def topIdOf {α : Type} [GetId α] (el : α) : Option String :=
  match GetId.topId el with
  | some t => if t = "" then none else some t
  | none => none

/-- Embedding of the JS expression el?.data?.id or-else el?.id:
a present, non-empty data.id wins, otherwise the top-level id is
consulted, the empty string counting as absent in both positions. -/
def getId {α : Type} [GetId α] (el : α) : Option String :=
  match GetId.dataId el with
  | some s => if s = "" then topIdOf el else some s
  | none => topIdOf el

/-- Worker for dedupeById: seen is the key set of the JS Map built so
far; an element with no id is skipped, a previously seen id is skipped,
and a new id keeps the element in traversal order (first write wins,
matching Map insertion order returned by Array.from). -/
def dedupeByIdAux {α : Type} [GetId α] (seen : List String) : List α → List α
  | [] => []
  | el :: rest =>
    match getId el with
    | none => dedupeByIdAux seen rest
    | some i =>
      if i ∈ seen then dedupeByIdAux seen rest
      else el :: dedupeByIdAux (i :: seen) rest

/-- Embedding of the source helper dedupeById (SchemaBuilder.js 328-336). -/
def dedupeById {α : Type} [GetId α] (l : List α) : List α :=
  dedupeByIdAux [] l

/-- The ids recorded by the JS Map after a traversal of l starting from
key set seen; used to reason about dedupeByIdAux on appended lists. -/
def seenAfter {α : Type} [GetId α] (seen : List String) : List α → List String
  | [] => seen
  | el :: rest =>
    match getId el with
    | none => seenAfter seen rest
    | some i =>
      if i ∈ seen then seenAfter seen rest
      else seenAfter (i :: seen) rest

/-- First element of l whose extracted id is n, mirroring how the id n
resolves inside the deduplicated collection. -/
def findById {α : Type} [GetId α] (l : List α) (n : String) : Option α :=
  l.find? (fun el => decide (getId el = some n))

/-- Generic duck-typed element with the two optional id fields read by
dedupeById and an arbitrary payload standing for the rest of the data. -/
structure RawElem (α : Type) where
  dataId : Option String
  topId : Option String
  payload : α
deriving DecidableEq, Repr

instance {α : Type} : GetId (RawElem α) :=
  ⟨RawElem.dataId, RawElem.topId⟩

theorem dedupeByIdAux_append {α : Type} [GetId α] (l₁ l₂ : List α) :
    ∀ seen, dedupeByIdAux seen (l₁ ++ l₂) =
      dedupeByIdAux seen l₁ ++ dedupeByIdAux (seenAfter seen l₁) l₂ := by
  induction l₁ with
  | nil => intro seen; simp [dedupeByIdAux, seenAfter]
  | cons el rest ih =>
    intro seen
    simp only [List.cons_append, dedupeByIdAux, seenAfter]
    cases h : getId el with
    | none => exact ih seen
    | some i =>
      by_cases hi : i ∈ seen
      · simp [hi, ih seen]
      · simp [hi, ih (i :: seen)]

theorem mem_seenAfter_of_mem {α : Type} [GetId α] (l : List α) :
    ∀ seen i, i ∈ seen → i ∈ seenAfter seen l := by
  induction l with
  | nil => intro seen i hi; simpa [seenAfter] using hi
  | cons el rest ih =>
    intro seen i hi
    simp only [seenAfter]
    cases h : getId el with
    | none => exact ih seen i hi
    | some j =>
      by_cases hj : j ∈ seen
      · simp only [hj, if_pos]; exact ih seen i hi
      · simp only [hj, if_neg, not_false_iff]
        exact ih (j :: seen) i (List.mem_cons_of_mem _ hi)

theorem getId_mem_seenAfter {α : Type} [GetId α] (l : List α) :
    ∀ seen (el : α) i, el ∈ l → getId el = some i → i ∈ seenAfter seen l := by
  induction l with
  | nil => intro seen el i h; simp at h
  | cons hd rest ih =>
    intro seen el i hmem hid
    rcases List.mem_cons.mp hmem with heq | htl
    · subst heq
      simp only [seenAfter, hid]
      by_cases hi : i ∈ seen
      · simp only [hi, if_pos]; exact mem_seenAfter_of_mem rest seen i hi
      · simp only [hi, if_neg, not_false_iff]
        exact mem_seenAfter_of_mem rest (i :: seen) i (List.mem_cons_self i seen)
    · simp only [seenAfter]
      cases h : getId hd with
      | none => exact ih seen el i htl hid
      | some j =>
        by_cases hj : j ∈ seen
        · simp only [hj, if_pos]; exact ih seen el i htl hid
        · simp only [hj, if_neg, not_false_iff]
          exact ih (j :: seen) el i htl hid

theorem dedupeByIdAux_eq_nil {α : Type} [GetId α] (l : List α) :
    ∀ seen, (∀ el ∈ l, ∀ i, getId el = some i → i ∈ seen) →
      dedupeByIdAux seen l = [] := by
  induction l with
  | nil => intro seen _; simp [dedupeByIdAux]
  | cons el rest ih =>
    intro seen h
    simp only [dedupeByIdAux]
    cases hid : getId el with
    | none => exact ih seen (fun e he => h e (List.mem_cons_of_mem _ he))
    | some i =>
      have hi : i ∈ seen := h el (List.mem_cons_self el rest) i hid
      simp only [hi, if_pos]
      exact ih seen (fun e he => h e (List.mem_cons_of_mem _ he))

theorem dedupeById_self_append {α : Type} [GetId α] (l : List α) :
    dedupeById (l ++ l) = dedupeById l := by
  unfold dedupeById
  rw [dedupeByIdAux_append]
  have h : dedupeByIdAux (seenAfter ([] : List String) l) l = [] := by
    apply dedupeByIdAux_eq_nil
    intro el hmem i hid
    exact getId_mem_seenAfter l [] el i hmem hid
  rw [h, List.append_nil]

theorem findById_cons_of_neg {α : Type} [GetId α] (el : α) (l : List α)
    (n : String) (h : ¬ getId el = some n) :
    findById (el :: l) n = findById l n := by
  simp [findById, List.find?, h]

theorem findById_cons_of_pos {α : Type} [GetId α] (el : α) (l : List α)
    (n : String) (h : getId el = some n) :
    findById (el :: l) n = some el := by
  simp [findById, List.find?, h]

theorem findById_dedupeByIdAux {α : Type} [GetId α] (l : List α) :
    ∀ seen n, n ∉ seen →
      findById (dedupeByIdAux seen l) n = findById l n := by
  induction l with
  | nil => intro seen n _; simp [dedupeByIdAux]
  | cons el rest ih =>
    intro seen n hn
    cases hid : getId el with
    | none =>
      have hne : ¬ getId el = some n := by simp [hid]
      simp only [dedupeByIdAux, hid, findById_cons_of_neg el rest n hne]
      exact ih seen n hn
    | some i =>
      by_cases hi : i ∈ seen
      · have hin : i ≠ n := fun h => hn (h ▸ hi)
        have hne : ¬ getId el = some n := by simp [hid, hin]
        simp only [dedupeByIdAux, hid, if_pos hi,
          findById_cons_of_neg el rest n hne]
        exact ih seen n hn
      · by_cases hin : i = n
        · subst hin
          simp only [dedupeByIdAux, hid, if_neg hi,
            findById_cons_of_pos el rest i hid,
            findById_cons_of_pos el (dedupeByIdAux (i :: seen) rest) i hid]
        · have hne : ¬ getId el = some n := by simp [hid, hin]
          have hn2 : n ∉ i :: seen := by
            simp only [List.mem_cons, not_or]
            exact ⟨fun h => hin h.symm, hn⟩
          simp only [dedupeByIdAux, hid, if_neg hi,
            findById_cons_of_neg el rest n hne,
            findById_cons_of_neg el (dedupeByIdAux (i :: seen) rest) n hne]
          exact ih (i :: seen) n hn2

theorem findById_dedupeById {α : Type} [GetId α] (l : List α) (n : String) :
    findById (dedupeById l) n = findById l n :=
  findById_dedupeByIdAux l [] n (List.not_mem_nil n)

theorem findById_append_left {α : Type} [GetId α] (l₁ l₂ : List α)
    (n : String) (h : (findById l₁ n).isSome) :
    findById (l₁ ++ l₂) n = findById l₁ n := by
  induction l₁ with
  | nil => simp [findById] at h
  | cons el rest ih =>
    by_cases hel : getId el = some n
    · rw [List.cons_append, findById_cons_of_pos el (rest ++ l₂) n hel,
        findById_cons_of_pos el rest n hel]
    · rw [findById_cons_of_neg el rest n hel] at h
      rw [List.cons_append, findById_cons_of_neg el (rest ++ l₂) n hel,
        findById_cons_of_neg el rest n hel]
      exact ih h

theorem topIdOf_ne_empty {α : Type} [GetId α] (el : α) (i : String)
    (h : topIdOf el = some i) : i ≠ "" := by
  unfold topIdOf at h
  cases ht : GetId.topId el with
  | none => simp [ht] at h
  | some t =>
    simp only [ht] at h
    by_cases he : t = ""
    · simp [he] at h
    · rw [if_neg he] at h
      exact (Option.some.inj h) ▸ he

theorem getId_ne_empty {α : Type} [GetId α] (el : α) (i : String)
    (h : getId el = some i) : i ≠ "" := by
  unfold getId at h
  cases hd : GetId.dataId el with
  | none =>
    simp only [hd] at h
    exact topIdOf_ne_empty el i h
  | some s =>
    simp only [hd] at h
    by_cases hs : s = ""
    · rw [if_pos hs] at h
      exact topIdOf_ne_empty el i h
    · rw [if_neg hs] at h
      exact (Option.some.inj h) ▸ hs

theorem getId_isSome_of_mem_dedupeByIdAux {α : Type} [GetId α] (l : List α) :
    ∀ seen (el : α), el ∈ dedupeByIdAux seen l → (getId el).isSome := by
  induction l with
  | nil => intro seen el h; simp [dedupeByIdAux] at h
  | cons hd rest ih =>
    intro seen el h
    cases hid : getId hd with
    | none =>
      simp only [dedupeByIdAux, hid] at h
      exact ih seen el h
    | some i =>
      by_cases hi : i ∈ seen
      · simp only [dedupeByIdAux, hid, if_pos hi] at h
        exact ih seen el h
      · simp only [dedupeByIdAux, hid, if_neg hi] at h
        rcases List.mem_cons.mp h with heq | htl
        · subst heq; simp [hid]
        · exact ih (i :: seen) el htl

theorem nodup_ids_dedupeByIdAux {α : Type} [GetId α] (l : List α) :
    ∀ seen, ((dedupeByIdAux seen l).filterMap getId).Nodup ∧
      ∀ i ∈ (dedupeByIdAux seen l).filterMap getId, i ∉ seen := by
  induction l with
  | nil => intro seen; simp [dedupeByIdAux]
  | cons hd rest ih =>
    intro seen
    cases hid : getId hd with
    | none =>
      simp only [dedupeByIdAux, hid]
      exact ih seen
    | some i =>
      by_cases hi : i ∈ seen
      · simp only [dedupeByIdAux, hid, if_pos hi]
        exact ih seen
      · simp only [dedupeByIdAux, hid, if_neg hi]
        rcases ih (i :: seen) with ⟨hnd, hout⟩
        constructor
        · simp only [List.filterMap_cons, hid, List.nodup_cons]
          refine ⟨fun hmem => ?_, hnd⟩
          exact hout i hmem (List.mem_cons_self i seen)
        · intro j hj hjseen
          simp only [List.filterMap_cons, hid, List.mem_cons] at hj
          rcases hj with rfl | hj
          · exact hi hjseen
          · exact hout j hj (List.mem_cons_of_mem _ hjseen)

/-- Derived node flags stored under metadata; isRelated is
backend-supplied, isOrphan is set only by the graph-assembly pass. -/
structure Meta where
  isRelated : Bool
  isOrphan : Bool
deriving DecidableEq, Repr

/-- Payload of a graph node element as consumed by updateGraph. -/
structure NodeData where
  id : String
  label : String
  category : String
  type : String
  metadata : Meta
deriving DecidableEq, Repr

/-- Cytoscape-style node element: a wrapper holding a data record. -/
structure Node where
  data : NodeData
deriving DecidableEq, Repr

instance : GetId Node :=
  ⟨fun n => some n.data.id, fun _ => none⟩

/-- Payload of a graph edge element as consumed by updateGraph. -/
structure EdgeData where
  id : String
  source : String
  target : String
  type : String
  label : String
deriving DecidableEq, Repr

/-- Cytoscape-style edge element: a wrapper holding a data record. -/
structure Edge where
  data : EdgeData
deriving DecidableEq, Repr

instance : GetId Edge :=
  ⟨fun e => some e.data.id, fun _ => none⟩

/-- A node and edge collection, the shape returned by the backend fetches
and accumulated in extraGraph. -/
structure Graph where
  nodes : List Node
  edges : List Edge
deriving DecidableEq, Repr

/-- Classification tiers of a relationship label. -/
inductive Level where
  | direct
  | indirect
  | metadata
  | unknown
deriving DecidableEq, Repr

/-- Relationship labels classified as direct (SchemaBuilder.js 461). -/
def directTypes : List String :=
  ["writes_to", "reads_from", "imports_to_de", "updates_de",
   "journey_entry_source", "filters_to", "filters_from"]

/-- Relationship labels classified as indirect (SchemaBuilder.js 462). -/
def indirectTypes : List String :=
  ["contains_query", "executes_query", "triggers_automation",
   "executes_activity", "next_step"]

/-- Relationship labels classified as metadata (SchemaBuilder.js 463). -/
def metadataTypes : List String :=
  ["filters_de", "uses_in_decision", "provides_data_to"]

/-- Embedding of classifyRelationship (SchemaBuilder.js 460-469):
a pure, total lookup falling back to unknown. -/
def classifyRelationship (relationshipType : String) : Level :=
  if relationshipType ∈ directTypes then Level.direct
  else if relationshipType ∈ indirectTypes then Level.indirect
  else if relationshipType ∈ metadataTypes then Level.metadata
  else Level.unknown

/-- Entry pushed onto the inbound list of an edge target
(SchemaBuilder.js 608-614). -/
structure InConn where
  edgeId : String
  sourceId : String
  type : String
  label : String
  level : Level
deriving DecidableEq, Repr

/-- Entry pushed onto the outbound list of an edge source
(SchemaBuilder.js 600-606). -/
structure OutConn where
  edgeId : String
  targetId : String
  type : String
  label : String
  level : Level
deriving DecidableEq, Repr

/-- Per-node connection record built by updateGraph
(SchemaBuilder.js 522-531). -/
structure ConnectionRecord where
  node : Node
  inbound : List InConn
  outbound : List OutConn
  hasDirectConnections : Bool
  hasIndirectConnections : Bool
  hasMetadataConnections : Bool
  totalConnections : Nat
deriving DecidableEq, Repr

/-- Lookup in an insertion-ordered association list, the embedding of
JS Map.get: the first binding of the key wins. -/
def mapLookup {β : Type} : List (String × β) → String → Option β
  | [], _ => none
  | (k, v) :: rest, j => if k = j then some v else mapLookup rest j

/-- Embedding of JS Map.set on an insertion-ordered association list:
an existing binding is updated in place, a new key is appended. -/
def mapSet {β : Type} : List (String × β) → String → β → List (String × β)
  | [], k, v => [(k, v)]
  | (a, b) :: t, k, v =>
    if a = k then (a, v) :: t else (a, b) :: mapSet t k v

/-- Record with empty adjacency created for each node before edges are
processed (SchemaBuilder.js 523-531). -/
def freshRecord (n : Node) : ConnectionRecord :=
  ⟨n, [], [], false, false, false, 0⟩

/-- First phase of updateGraph: one empty connection record per node,
inserted in node order (SchemaBuilder.js 522-531). -/
def buildRecords (nodes : List Node) : List (String × ConnectionRecord) :=
  nodes.foldl (fun m n => mapSet m n.data.id (freshRecord n)) []

/-- Functional update of the record stored under one key, the embedding
of mutating the object obtained from Map.get; keys and binding order are
untouched. -/
def updateRec : List (String × ConnectionRecord) → String →
    (ConnectionRecord → ConnectionRecord) →
    List (String × ConnectionRecord)
  | [], _, _ => []
  | (a, b) :: t, k, f =>
    if a = k then (a, f b) :: updateRec t k f
    else (a, b) :: updateRec t k f

/-- Edge info object pushed onto validEdges (SchemaBuilder.js 565-571). -/
structure EdgeInfo where
  edge : Edge
  level : Level
  isDirect : Bool
  isIndirect : Bool
  isMetadata : Bool
deriving DecidableEq, Repr

/-- The validEdges entry built for an accepted edge. -/
def mkEdgeInfo (e : Edge) : EdgeInfo :=
  let level := classifyRelationship e.data.type
  ⟨e, level, decide (level = Level.direct),
    decide (level = Level.indirect), decide (level = Level.metadata)⟩

/-- Mutation applied to the record of the edge source: append to
outbound, raise the tier flag, bump totalConnections
(SchemaBuilder.js 600-629). -/
def outUpdate (e : Edge) (level : Level) (r : ConnectionRecord) :
    ConnectionRecord :=
  { r with
    outbound := r.outbound ++
      [⟨e.data.id, e.data.target, e.data.type, e.data.label, level⟩],
    hasDirectConnections :=
      r.hasDirectConnections || decide (level = Level.direct),
    hasIndirectConnections :=
      r.hasIndirectConnections || decide (level = Level.indirect),
    hasMetadataConnections :=
      r.hasMetadataConnections || decide (level = Level.metadata),
    totalConnections := r.totalConnections + 1 }

/-- Mutation applied to the record of the edge target: append to
inbound, raise the tier flag, bump totalConnections
(SchemaBuilder.js 608-629). -/
def inUpdate (e : Edge) (level : Level) (r : ConnectionRecord) :
    ConnectionRecord :=
  { r with
    inbound := r.inbound ++
      [⟨e.data.id, e.data.source, e.data.type, e.data.label, level⟩],
    hasDirectConnections :=
      r.hasDirectConnections || decide (level = Level.direct),
    hasIndirectConnections :=
      r.hasIndirectConnections || decide (level = Level.indirect),
    hasMetadataConnections :=
      r.hasMetadataConnections || decide (level = Level.metadata),
    totalConnections := r.totalConnections + 1 }

/-- Second phase of updateGraph (SchemaBuilder.js 550-644): each edge
whose endpoints both resolve in the record map is classified, appended
to validEdges and indexed on both endpoint records; an edge with a
missing endpoint is dropped and processing continues.  The self-loop
case is faithful: the source update is applied before the target update,
exactly as the two mutations on the one shared record object. -/
def processEdges (m : List (String × ConnectionRecord)) :
    List Edge → List (String × ConnectionRecord) × List EdgeInfo
  | [] => (m, [])
  | e :: es =>
    if (mapLookup m e.data.source).isSome ∧
        (mapLookup m e.data.target).isSome then
      let level := classifyRelationship e.data.type
      let m2 := updateRec (updateRec m e.data.source (outUpdate e level))
        e.data.target (inUpdate e level)
      let r := processEdges m2 es
      (r.1, mkEdgeInfo e :: r.2)
    else processEdges m es

/-- Effect on the record of the key id of accepting one valid edge. -/
def applyOne (id : String) (info : EdgeInfo) (r : ConnectionRecord) :
    ConnectionRecord :=
  let r1 := if id = info.edge.data.source
    then outUpdate info.edge info.level r else r
  if id = info.edge.data.target
    then inUpdate info.edge info.level r1 else r1

/-- Cumulative effect on the record of the key id of a list of accepted
edges, in acceptance order. -/
def applyAll (id : String) (ve : List EdgeInfo) (r : ConnectionRecord) :
    ConnectionRecord :=
  ve.foldl (fun r info => applyOne id info r) r

/-- Number of endpoint incidences of the key id among the accepted
edges; a self-loop on id counts twice, as both increments fire. -/
def incCount (id : String) : List EdgeInfo → Nat
  | [] => 0
  | info :: ve =>
    ((if id = info.edge.data.source then 1 else 0) +
      (if id = info.edge.data.target then 1 else 0)) + incCount id ve

/-- Inbound entry recorded for an accepted edge at its target. -/
def mkIn (info : EdgeInfo) : InConn :=
  ⟨info.edge.data.id, info.edge.data.source, info.edge.data.type,
    info.edge.data.label, info.level⟩

/-- Outbound entry recorded for an accepted edge at its source. -/
def mkOut (info : EdgeInfo) : OutConn :=
  ⟨info.edge.data.id, info.edge.data.target, info.edge.data.type,
    info.edge.data.label, info.level⟩

theorem mapLookup_updateRec (m : List (String × ConnectionRecord))
    (k j : String) (f : ConnectionRecord → ConnectionRecord) :
    mapLookup (updateRec m k f) j =
      if j = k then (mapLookup m j).map f else mapLookup m j := by
  induction m with
  | nil => simp [updateRec, mapLookup]
  | cons p t ih =>
    obtain ⟨a, b⟩ := p
    simp only [updateRec]
    by_cases hak : a = k
    · rw [if_pos hak]
      by_cases haj : a = j
      · subst haj
        simp [mapLookup, hak]
      · have hja : ¬ j = a := fun h => haj h.symm
        have hjk : ¬ j = k := fun h => hja (h.trans hak.symm)
        simp [mapLookup, haj, hja, hjk, ih]
    · rw [if_neg hak]
      by_cases haj : a = j
      · subst haj
        simp [mapLookup, hak]
      · have hja : ¬ j = a := fun h => haj h.symm
        simp [mapLookup, haj, hja, ih]

theorem applyAll_cons (id : String) (info : EdgeInfo) (ve : List EdgeInfo)
    (r : ConnectionRecord) :
    applyAll id (info :: ve) r = applyAll id ve (applyOne id info r) := rfl

theorem mapLookup_processOne (m : List (String × ConnectionRecord))
    (e : Edge) (id : String) :
    mapLookup (updateRec
        (updateRec m e.data.source
          (outUpdate e (classifyRelationship e.data.type)))
        e.data.target (inUpdate e (classifyRelationship e.data.type))) id =
      (mapLookup m id).map (applyOne id (mkEdgeInfo e)) := by
  rw [mapLookup_updateRec, mapLookup_updateRec]
  cases ho : mapLookup m id with
  | none =>
    by_cases hs : id = e.data.source <;>
      by_cases ht : id = e.data.target <;>
      simp [hs, ht]
  | some r =>
    by_cases hs : id = e.data.source <;> by_cases ht : id = e.data.target
    · rw [if_pos ht, if_pos hs]
      simp [applyOne, mkEdgeInfo, if_pos hs, if_pos ht]
    · rw [if_neg ht, if_pos hs]
      simp [applyOne, mkEdgeInfo, if_pos hs, if_neg ht]
    · rw [if_pos ht, if_neg hs]
      simp [applyOne, mkEdgeInfo, if_neg hs, if_pos ht]
    · rw [if_neg ht, if_neg hs]
      simp [applyOne, mkEdgeInfo, if_neg hs, if_neg ht]

theorem processEdges_lookup (es : List Edge) :
    ∀ m id, mapLookup (processEdges m es).1 id =
      (mapLookup m id).map (applyAll id (processEdges m es).2) := by
  induction es with
  | nil =>
    intro m id
    cases h : mapLookup m id <;> simp [processEdges, applyAll, h]
  | cons e es ih =>
    intro m id
    by_cases hv : (mapLookup m e.data.source).isSome ∧
        (mapLookup m e.data.target).isSome
    · simp only [processEdges, if_pos hv]
      rw [ih, mapLookup_processOne]
      cases h : mapLookup m id with
      | none => simp
      | some r => simp [applyAll_cons]
    · simp only [processEdges, if_neg hv]
      exact ih m id

theorem applyOne_total (id : String) (info : EdgeInfo)
    (r : ConnectionRecord) :
    (applyOne id info r).totalConnections =
      r.totalConnections +
        ((if id = info.edge.data.source then 1 else 0) +
          (if id = info.edge.data.target then 1 else 0)) := by
  by_cases hs : id = info.edge.data.source <;>
    by_cases ht : id = info.edge.data.target
  · simp only [applyOne, if_pos hs, if_pos ht]
    simp [outUpdate, inUpdate]
  · simp only [applyOne, if_pos hs, if_neg ht]
    simp [outUpdate]
  · simp only [applyOne, if_neg hs, if_pos ht]
    simp [inUpdate]
  · simp only [applyOne, if_neg hs, if_neg ht]
    simp

theorem incCount_cons (id : String) (info : EdgeInfo)
    (ve : List EdgeInfo) :
    incCount id (info :: ve) =
      ((if id = info.edge.data.source then 1 else 0) +
        (if id = info.edge.data.target then 1 else 0)) + incCount id ve := rfl

theorem applyAll_total (id : String) (ve : List EdgeInfo) :
    ∀ r : ConnectionRecord,
      (applyAll id ve r).totalConnections =
        r.totalConnections + incCount id ve := by
  induction ve with
  | nil => intro r; simp [applyAll, incCount]
  | cons info ve ih =>
    intro r
    rw [applyAll_cons, ih, applyOne_total, incCount_cons]
    omega

theorem applyOne_inbound (id : String) (info : EdgeInfo)
    (r : ConnectionRecord) :
    (applyOne id info r).inbound =
      r.inbound ++
        (if id = info.edge.data.target then [mkIn info] else []) := by
  by_cases hs : id = info.edge.data.source <;>
    by_cases ht : id = info.edge.data.target
  · simp only [applyOne, if_pos hs, if_pos ht]
    simp [outUpdate, inUpdate, mkIn]
  · simp only [applyOne, if_pos hs, if_neg ht]
    simp [outUpdate, ht]
  · simp only [applyOne, if_neg hs, if_pos ht]
    simp [inUpdate, mkIn, ht]
  · simp only [applyOne, if_neg hs, if_neg ht]
    simp [ht]

theorem applyAll_inbound (id : String) (ve : List EdgeInfo) :
    ∀ r : ConnectionRecord,
      (applyAll id ve r).inbound =
        r.inbound ++
          (ve.filter (fun i => decide (id = i.edge.data.target))).map mkIn := by
  induction ve with
  | nil => intro r; simp [applyAll]
  | cons info ve ih =>
    intro r
    rw [applyAll_cons, ih, applyOne_inbound]
    by_cases ht : id = info.edge.data.target <;>
      simp [List.filter_cons, ht]

theorem applyOne_outbound (id : String) (info : EdgeInfo)
    (r : ConnectionRecord) :
    (applyOne id info r).outbound =
      r.outbound ++
        (if id = info.edge.data.source then [mkOut info] else []) := by
  by_cases hs : id = info.edge.data.source <;>
    by_cases ht : id = info.edge.data.target
  · simp only [applyOne, if_pos hs, if_pos ht]
    simp [outUpdate, inUpdate, mkOut]
  · simp only [applyOne, if_pos hs, if_neg ht]
    simp [outUpdate, mkOut]
  · simp only [applyOne, if_neg hs, if_pos ht]
    simp [inUpdate, hs]
  · simp only [applyOne, if_neg hs, if_neg ht]
    simp [hs]

theorem applyAll_outbound (id : String) (ve : List EdgeInfo) :
    ∀ r : ConnectionRecord,
      (applyAll id ve r).outbound =
        r.outbound ++
          (ve.filter (fun i => decide (id = i.edge.data.source))).map mkOut := by
  induction ve with
  | nil => intro r; simp [applyAll]
  | cons info ve ih =>
    intro r
    rw [applyAll_cons, ih, applyOne_outbound]
    by_cases hs : id = info.edge.data.source <;>
      simp [List.filter_cons, hs]

theorem mapLookup_mapSet {β : Type} (m : List (String × β)) (k j : String)
    (v : β) :
    mapLookup (mapSet m k v) j =
      if j = k then some v else mapLookup m j := by
  induction m with
  | nil =>
    by_cases h : j = k
    · subst h; simp [mapSet, mapLookup]
    · have h2 : ¬ k = j := fun hh => h hh.symm
      simp [mapSet, mapLookup, h, h2]
  | cons p t ih =>
    obtain ⟨a, b⟩ := p
    by_cases hak : a = k
    · subst hak
      by_cases haj : a = j
      · subst haj
        simp [mapSet, mapLookup]
      · have hja : ¬ j = a := fun h => haj h.symm
        simp [mapSet, mapLookup, haj, hja]
    · by_cases haj : a = j
      · subst haj
        simp [mapSet, mapLookup, hak]
      · have hja : ¬ j = a := fun h => haj h.symm
        simp [mapSet, mapLookup, hak, haj, hja, ih]

theorem buildRecords_isSome_aux (nodes : List Node) :
    ∀ (m : List (String × ConnectionRecord)) (id : String),
      (mapLookup (nodes.foldl
          (fun m n => mapSet m n.data.id (freshRecord n)) m) id).isSome ↔
        (mapLookup m id).isSome ∨ id ∈ nodes.map (fun n => n.data.id) := by
  induction nodes with
  | nil => intro m id; simp
  | cons n ns ih =>
    intro m id
    simp only [List.foldl_cons, List.map_cons, List.mem_cons]
    rw [ih, mapLookup_mapSet]
    by_cases h : id = n.data.id <;> simp [h]

theorem buildRecords_isSome (nodes : List Node) (id : String) :
    (mapLookup (buildRecords nodes) id).isSome ↔
      id ∈ nodes.map (fun n => n.data.id) := by
  unfold buildRecords
  rw [buildRecords_isSome_aux]
  simp [mapLookup]

theorem buildRecords_fresh_aux (nodes : List Node) :
    ∀ (m : List (String × ConnectionRecord)),
      (∀ id r, mapLookup m id = some r →
        r.inbound = [] ∧ r.outbound = [] ∧ r.totalConnections = 0 ∧
          (∃ n, r = freshRecord n)) →
      ∀ id r, mapLookup (nodes.foldl
          (fun m n => mapSet m n.data.id (freshRecord n)) m) id = some r →
        r.inbound = [] ∧ r.outbound = [] ∧ r.totalConnections = 0 ∧
          (∃ n, r = freshRecord n) := by
  induction nodes with
  | nil => intro m hm; exact hm
  | cons n ns ih =>
    intro m hm
    simp only [List.foldl_cons]
    apply ih
    intro id r hr
    rw [mapLookup_mapSet] at hr
    by_cases h : id = n.data.id
    · rw [if_pos h] at hr
      have : r = freshRecord n := (Option.some.inj hr).symm
      subst this
      exact ⟨rfl, rfl, rfl, n, rfl⟩
    · rw [if_neg h] at hr
      exact hm id r hr

theorem buildRecords_fresh (nodes : List Node) (id : String)
    (r : ConnectionRecord) (h : mapLookup (buildRecords nodes) id = some r) :
    r.inbound = [] ∧ r.outbound = [] ∧ r.totalConnections = 0 := by
  have := buildRecords_fresh_aux nodes []
    (by intro id r hr; simp [mapLookup] at hr) id r h
  exact ⟨this.1, this.2.1, this.2.2.1⟩

theorem processEdges_drop (m : List (String × ConnectionRecord)) (e : Edge)
    (es : List Edge)
    (h : ¬ ((mapLookup m e.data.source).isSome ∧
      (mapLookup m e.data.target).isSome)) :
    processEdges m (e :: es) = processEdges m es := by
  simp only [processEdges, if_neg h]

theorem processEdges_valid (es : List Edge) :
    ∀ m info, info ∈ (processEdges m es).2 →
      (mapLookup m info.edge.data.source).isSome ∧
        (mapLookup m info.edge.data.target).isSome ∧
        info.level = classifyRelationship info.edge.data.type := by
  induction es with
  | nil => intro m info h; simp [processEdges] at h
  | cons e es ih =>
    intro m info hmem
    by_cases hv : (mapLookup m e.data.source).isSome ∧
        (mapLookup m e.data.target).isSome
    · simp only [processEdges, if_pos hv, List.mem_cons] at hmem
      rcases hmem with rfl | htl
      · exact ⟨by simpa [mkEdgeInfo] using hv.1,
          by simpa [mkEdgeInfo] using hv.2, by simp [mkEdgeInfo]⟩
      · have h2 := ih _ info htl
        have hsrc := h2.1
        have htgt := h2.2.1
        rw [mapLookup_processOne] at hsrc htgt
        exact ⟨by simpa using hsrc, by simpa using htgt, h2.2.2⟩
    · simp only [processEdges, if_neg hv] at hmem
      exact ih m info hmem

/-- Nodes whose record shows at least one connection, in map insertion
order (SchemaBuilder.js 677-694). -/
def connectedNodes (m : List (String × ConnectionRecord)) : List Node :=
  (m.filter (fun p => decide (0 < p.2.totalConnections))).map
    (fun p => p.2.node)

/-- Nodes whose record shows zero connections, in map insertion order
(SchemaBuilder.js 707-709): the orphan classification is exactly
totalConnections equal to zero. -/
def orphanNodes (m : List (String × ConnectionRecord)) : List Node :=
  (m.filter (fun p => !(decide (0 < p.2.totalConnections)))).map
    (fun p => p.2.node)

/-- Styling applied to a retained orphan: metadata.isOrphan is set to
true, everything else is preserved (SchemaBuilder.js 725-734). -/
def setOrphanFlag (n : Node) : Node :=
  { n with data := { n.data with
      metadata := { n.data.metadata with isOrphan := true } } }

/-- Final node list of the assembly pass: connected nodes followed by
the styled orphans; orphans are always included since the source branch
condition is the literal true (SchemaBuilder.js 720-739). -/
def finalNodes (m : List (String × ConnectionRecord)) : List Node :=
  connectedNodes m ++ (orphanNodes m).map setOrphanFlag

/-- JS Set.add on the insertion-ordered duplicate-free list model. -/
def setAdd (l : List String) (x : String) : List String :=
  if x ∈ l then l else l ++ [x]

/-- Embedding of the selection highlighter (SchemaBuilder.js 742-760):
with no selected node both sets stay empty (the empty string is falsy
and acts as no selection); otherwise the selected id is added, then
every inbound connection contributes its sourceId and edgeId and every
outbound connection its targetId and edgeId. -/
def highlightSets (selectedNodeId : Option String)
    (m : List (String × ConnectionRecord)) :
    List String × List String :=
  match selectedNodeId with
  | none => ([], [])
  | some s =>
    if s = "" then ([], [])
    else
      match mapLookup m s with
      | none => ([s], [])
      | some r =>
        let p1 := r.inbound.foldl
          (fun p c => (setAdd p.1 c.sourceId, setAdd p.2 c.edgeId))
          ([s], [])
        r.outbound.foldl
          (fun p c => (setAdd p.1 c.targetId, setAdd p.2 c.edgeId)) p1

/-- Embedding of the hasActiveSelections test (SchemaBuilder.js
481-484): the selection map is nonempty and some category holds some
object marked true. -/
def hasActiveSelections
    (sel : List (String × List (String × Bool))) : Bool :=
  decide (0 < sel.length) && sel.any (fun c => c.2.any (fun o => o.2))

/-- Embedding of the merge decision of updateGraph (SchemaBuilder.js
486-494): with an active focused selection only the backend data is
used, otherwise the base fetch is merged first-write-wins with the
accumulated extraGraph. -/
def mergedGraphData (sel : List (String × List (String × Bool)))
    (base extra : Graph) : Graph :=
  if hasActiveSelections sel then
    { nodes := base.nodes, edges := base.edges }
  else
    { nodes := dedupeById (base.nodes ++ extra.nodes),
      edges := dedupeById (base.edges ++ extra.edges) }

/-- Whole assembly pass over a merged graph: records per node, then
edge classification and indexing. -/
def indexGraph (g : Graph) :
    List (String × ConnectionRecord) × List EdgeInfo :=
  processEdges (buildRecords g.nodes) g.edges

/-- Spec-level Graph Merger contract (spec section 4.2): merge a list of
graphs by concatenating collections in list order and deduplicating by
id, realized in the source by dedupeById over spread arrays. -/
def mergeGraphList (gs : List Graph) : Graph :=
  { nodes := dedupeById (gs.map (fun g => g.nodes)).flatten,
    edges := dedupeById (gs.map (fun g => g.edges)).flatten }

/-- Embedding of expandSelectedNode (SchemaBuilder.js 1030-1052): the
one-hop fetch result is deduplicated and merged into extraGraph first
write wins; a missing selection is a no-op and a failed fetch (the
thrown path) leaves extraGraph unchanged. -/
def expandSelectedNode (fetch : String → Option Graph)
    (selectedNodeId : Option String) (extra : Graph) : Graph :=
  match selectedNodeId with
  | none => extra
  | some s =>
    if s = "" then extra
    else
      match fetch s with
      | none => extra
      | some data =>
        let newNodes := dedupeById data.nodes
        let newEdges := dedupeById data.edges
        { nodes := dedupeById (extra.nodes ++ newNodes),
          edges := dedupeById (extra.edges ++ newEdges) }

/-- State carried through one frontier level of the recursive
expansion: the accumulated extraGraph, the visited id set and the next
frontier being collected. -/
structure LevelState where
  extra : Graph
  visited : List String
  next : List String
deriving Repr

/-- Embedding of the per-node body of the fan-out loop (SchemaBuilder.js
1064-1084): a failed fetch leaves the state untouched; a successful one
merges the response into extraGraph and adds every returned node id not
yet visited to both visited and the next frontier. -/
def stepNode (fetch : String → Option Graph) (st : LevelState)
    (nodeId : String) : LevelState :=
  match fetch nodeId with
  | none => st
  | some res =>
    let extra2 : Graph :=
      { nodes := dedupeById (st.extra.nodes ++ res.nodes),
        edges := dedupeById (st.extra.edges ++ res.edges) }
    let vn := res.nodes.foldl
      (fun (p : List String × List String) n =>
        if n.data.id ≠ "" ∧ n.data.id ∉ p.1 then
          (p.1 ++ [n.data.id], p.2 ++ [n.data.id])
        else p)
      (st.visited, st.next)
    { extra := extra2, visited := vn.1, next := vn.2 }

/-- One frontier level: every id of the frontier is fetched; the fan-in
arrival order is determinized to frontier order. -/
def processLevel (fetch : String → Option Graph) (frontier : List String)
    (st : LevelState) : LevelState :=
  frontier.foldl (stepNode fetch) st

/-- Embedding of the while loop of expandSelectedNodeRecursively
(SchemaBuilder.js 1062-1088), fueled by the remaining depth budget.
Returns the final extraGraph, the frontier left when the loop exits and
the number of level rounds executed. -/
def expandLevels (fetch : String → Option Graph) :
    Nat → List String → List String → Graph →
    Graph × List String × Nat
  | 0, frontier, _, extra => (extra, frontier, 0)
  | Nat.succ fuel, frontier, visited, extra =>
    if frontier = [] then (extra, frontier, 0)
    else
      let st := processLevel fetch frontier
        ⟨extra, visited, []⟩
      let r := expandLevels fetch fuel st.next st.visited st.extra
      (r.1, r.2.1, r.2.2 + 1)

/-- Embedding of expandSelectedNodeRecursively (SchemaBuilder.js
1055-1096): no-op without a selected node; otherwise visited is seeded
from the ids already present in extraGraph, the frontier starts as the
selected id alone, and the level loop runs under the depth bound. -/
def expandSelectedNodeRecursively (fetch : String → Option Graph)
    (selectedNodeId : Option String) (maxDepth : Nat) (extra : Graph) :
    Graph × List String × Nat :=
  match selectedNodeId with
  | none => (extra, [], 0)
  | some s =>
    if s = "" then (extra, [], 0)
    else
      let visited := (extra.nodes.map (fun n => n.data.id)).filter
        (fun id => decide (id ≠ ""))
      expandLevels fetch maxDepth [s] visited extra

/-- Concrete node with id A used in scenario checks. -/
def nA : Node :=
  ⟨⟨"A", "Node A", "Data Extensions", "DataExtension", ⟨false, false⟩⟩⟩

/-- Concrete node with id B used in scenario checks. -/
def nB : Node :=
  ⟨⟨"B", "Node B", "SQL Queries", "Query", ⟨false, false⟩⟩⟩

/-- Concrete node with id C used in scenario checks. -/
def nC : Node :=
  ⟨⟨"C", "Node C", "Filters", "Filter", ⟨false, false⟩⟩⟩

/-- Concrete node with id D used in scenario checks. -/
def nD : Node :=
  ⟨⟨"D", "Node D", "Automations", "Automation", ⟨false, false⟩⟩⟩

/-- Concrete direct edge from A to B. -/
def eAB : Edge := ⟨⟨"eAB", "A", "B", "writes_to", "writes to"⟩⟩

/-- Concrete metadata edge from C to A. -/
def eCA : Edge := ⟨⟨"eCA", "C", "A", "uses_in_decision", "uses"⟩⟩

/-- Scenario graph of spec section 8: nodes A B C D, a direct edge
A to B and a metadata edge C to A; D has no incident edge. -/
def gC3 : Graph := ⟨[nA, nB, nC, nD], [eAB, eCA]⟩

/-- Fetch collaborator of the recursive-expansion scenario: the one-hop
neighborhood of A returns nodes A and B, that of B returns nodes B and
C, and anything else returns an empty graph. -/
def fetchC2 : String → Option Graph := fun id =>
  if id = "A" then some ⟨[nA, nB], []⟩
  else if id = "B" then some ⟨[nB, nC], []⟩
  else some ⟨[], []⟩

/-- C4: first write wins in the merge: when a graph A already resolves
the id n, merging further collections behind it cannot change which
element the id n resolves to, the later duplicate being dropped; and the
merge result does depend on the order of the input list. -/
theorem claim_C4_first_write_wins {α : Type} [GetId α]
    (l₁ l₂ : List α) (n : String) (h : (findById l₁ n).isSome) :
    findById (dedupeById (l₁ ++ l₂)) n = findById l₁ n ∧
      ∃ A B : List (RawElem Nat),
        dedupeById (A ++ B) ≠ dedupeById (B ++ A) := by
  constructor
  · rw [findById_dedupeById, findById_append_left _ _ _ h]
  · exact ⟨[⟨some "n", none, 1⟩], [⟨some "n", none, 2⟩], by decide⟩

/-- Witness instantiating C4 on two one-element graphs sharing id n. -/
theorem claim_C4_first_write_wins_witness :
    findById (dedupeById
        ([⟨some "n", none, 1⟩] ++ [(⟨some "n", none, 2⟩ : RawElem Nat)]))
      "n" = findById [(⟨some "n", none, (1 : Nat)⟩ : RawElem Nat)] "n" :=
  (claim_C4_first_write_wins ([⟨some "n", none, 1⟩] : List (RawElem Nat))
    [⟨some "n", none, 2⟩] "n" (by decide)).1

/-- C9: merging the list holding a graph twice equals merging it once;
the duplicate pass adds nothing, keeping identity set and first-seen
data. -/
theorem claim_C9_merge_idempotent (g : Graph) :
    mergeGraphList [g, g] = mergeGraphList [g] := by
  simp [mergeGraphList, dedupeById_self_append]

/-- C10: every element surviving dedupeById carries a non-empty
extracted id, the surviving ids are pairwise distinct, and an element
with no id never reaches the output. -/
theorem claim_C10_dedupe_invariants {α : Type} [GetId α] (l : List α) :
    (∀ el ∈ dedupeById l, ∃ i, getId el = some i ∧ i ≠ "") ∧
      ((dedupeById l).filterMap getId).Nodup ∧
      (∀ el : α, getId el = none → el ∉ dedupeById l) := by
  refine ⟨?_, (nodup_ids_dedupeByIdAux l []).1, ?_⟩
  · intro el hmem
    have hs := getId_isSome_of_mem_dedupeByIdAux l [] el hmem
    rcases Option.isSome_iff_exists.mp hs with ⟨i, hi⟩
    exact ⟨i, hi, getId_ne_empty el i hi⟩
  · intro el hnone hmem
    have hs := getId_isSome_of_mem_dedupeByIdAux l [] el hmem
    rw [hnone] at hs
    simp at hs

/-- Witness instantiating C10: an element lacking both id fields is
dropped from the deduplicated output. -/
theorem claim_C10_dedupe_invariants_witness :
    (⟨none, none, 7⟩ : RawElem Nat) ∉
      dedupeById [(⟨none, none, 7⟩ : RawElem Nat), ⟨some "a", none, 1⟩] :=
  (claim_C10_dedupe_invariants
    [(⟨none, none, 7⟩ : RawElem Nat), ⟨some "a", none, 1⟩]).2.2
    ⟨none, none, 7⟩ rfl

/-- C1 counterexample: with an active focused selection and a node
accumulated in extraGraph, updateGraph hands the indexer only the
backend base graph, not the first-write-wins merge with extraGraph. -/
theorem claim_C1_counterexample :
    (mergedGraphData [("Data Extensions", [("obj1", true)])]
        ⟨[], []⟩ ⟨[nA], []⟩).nodes ≠
      dedupeById ((⟨[], []⟩ : Graph).nodes ++ (⟨[nA], []⟩ : Graph).nodes) := by
  decide

/-- C1 amended: the merge with extraGraph happens exactly when no
selection is active; with an active selection (some category holds some
object marked true, which is what hasActiveSelections tests) the merged
graph is the base fetch alone. -/
theorem claim_C1_amended (sel : List (String × List (String × Bool)))
    (base extra : Graph) :
    (hasActiveSelections sel = true ↔
      ∃ c ∈ sel, ∃ o ∈ c.2, o.2 = true) ∧
    (hasActiveSelections sel = false →
      mergedGraphData sel base extra =
        ⟨dedupeById (base.nodes ++ extra.nodes),
          dedupeById (base.edges ++ extra.edges)⟩) ∧
    (hasActiveSelections sel = true →
      mergedGraphData sel base extra = base) := by
  refine ⟨?_, ?_, ?_⟩
  · unfold hasActiveSelections
    rw [Bool.and_eq_true, List.any_eq_true]
    constructor
    · rintro ⟨-, c, hc, h2⟩
      rw [List.any_eq_true] at h2
      obtain ⟨o, ho, hob⟩ := h2
      exact ⟨c, hc, o, ho, hob⟩
    · rintro ⟨c, hc, o, ho, hob⟩
      refine ⟨?_, c, hc, List.any_eq_true.mpr ⟨o, ho, hob⟩⟩
      have : sel ≠ [] := List.ne_nil_of_mem hc
      simp [List.length_pos, this]
  · intro h
    simp [mergedGraphData, h]
  · intro h
    simp [mergedGraphData, h]

/-- Witness instantiating the amended C1 on an active selection. -/
theorem claim_C1_amended_witness :
    mergedGraphData [("Data Extensions", [("obj1", true)])]
        ⟨[], []⟩ ⟨[nA], []⟩ = ⟨[], []⟩ :=
  (claim_C1_amended [("Data Extensions", [("obj1", true)])]
    ⟨[], []⟩ ⟨[nA], []⟩).2.2 (by decide)

/-- C2 counterexample: in the scenario where the neighborhood of A
returns A and B and the neighborhood of B returns B and C, running the
recursive expansion from A with depth 2 leaves the frontier holding C,
not empty: the id discovered at the final level stays queued when the
depth bound stops the loop. -/
theorem claim_C2_counterexample :
    (expandSelectedNodeRecursively fetchC2 (some "A") 2 ⟨[], []⟩).2.1 ≠
      [] := by
  decide

/-- C2 amended: the depth-2 run from A terminates with extraGraph
holding exactly the nodes A B C in first-seen order, having executed two
level rounds, and with the frontier holding exactly the id C discovered
at the last processed level. -/
theorem claim_C2_amended :
    ((expandSelectedNodeRecursively fetchC2 (some "A") 2
        ⟨[], []⟩).1.nodes.map (fun n => n.data.id) = ["A", "B", "C"]) ∧
    ((expandSelectedNodeRecursively fetchC2 (some "A") 2
        ⟨[], []⟩).2.1 = ["C"]) ∧
    ((expandSelectedNodeRecursively fetchC2 (some "A") 2
        ⟨[], []⟩).2.2 = 2) := by
  refine ⟨?_, ?_, ?_⟩ <;> decide

theorem expandLevels_rounds_le (fetch : String → Option Graph)
    (fuel : Nat) :
    ∀ frontier visited extra,
      (expandLevels fetch fuel frontier visited extra).2.2 ≤ fuel := by
  induction fuel with
  | zero => intro f v e; simp [expandLevels]
  | succ n ih =>
    intro f v e
    by_cases hf : f = []
    · simp [expandLevels, hf]
    · simp only [expandLevels, if_neg hf]
      have h := ih (processLevel fetch f ⟨e, v, []⟩).next
        (processLevel fetch f ⟨e, v, []⟩).visited
        (processLevel fetch f ⟨e, v, []⟩).extra
      omega

/-- C7: the recursive expansion always terminates (it is a total
function of its fuel) and executes at most maxDepth level rounds, the
empty frontier stopping it immediately with the graph unchanged. -/
theorem claim_C7_expansion_bounded (fetch : String → Option Graph)
    (sel : Option String) (d : Nat) (extra : Graph) :
    (expandSelectedNodeRecursively fetch sel d extra).2.2 ≤ d ∧
      (∀ visited g, expandLevels fetch d [] visited g = (g, [], 0)) := by
  constructor
  · cases sel with
    | none => simp [expandSelectedNodeRecursively]
    | some s =>
      by_cases hs : s = ""
      · simp [expandSelectedNodeRecursively, hs]
      · simp only [expandSelectedNodeRecursively, if_neg hs]
        exact expandLevels_rounds_le fetch d _ _ _
  · intro visited g
    cases d <;> simp [expandLevels]

/-- C8: a failed fetch is never fatal: a failing one-hop expansion
leaves extraGraph unchanged, and inside a recursive-expansion level the
failing node contributes nothing while the rest of the level is
processed exactly as if that node were absent. -/
theorem claim_C8_fetch_failure_soft (fetch : String → Option Graph)
    (s : String) (extra : Graph) (h : fetch s = none) :
    expandSelectedNode fetch (some s) extra = extra ∧
      (∀ st : LevelState, stepNode fetch st s = st) ∧
      (∀ (l₁ l₂ : List String) (st : LevelState),
        processLevel fetch (l₁ ++ s :: l₂) st =
          processLevel fetch (l₁ ++ l₂) st) := by
  have hstep : ∀ st : LevelState, stepNode fetch st s = st := by
    intro st; simp [stepNode, h]
  refine ⟨?_, hstep, ?_⟩
  · by_cases hs : s = "" <;> simp [expandSelectedNode, h, hs]
  · intro l₁ l₂ st
    unfold processLevel
    rw [List.foldl_append, List.foldl_append, List.foldl_cons, hstep]

/-- Witness instantiating C8 on an always-failing fetch. -/
theorem claim_C8_fetch_failure_soft_witness :
    expandSelectedNode (fun _ => none) (some "x") ⟨[], []⟩ = ⟨[], []⟩ :=
  (claim_C8_fetch_failure_soft (fun _ => none) "x" ⟨[], []⟩ rfl).1

theorem ite_one_zero_eq_zero {c : Prop} [Decidable c] :
    (if c then (1 : Nat) else 0) = 0 ↔ ¬ c := by
  by_cases h : c <;> simp [h]

theorem incCount_eq_zero (id : String) (ve : List EdgeInfo) :
    incCount id ve = 0 ↔
      ∀ info ∈ ve, ¬ id = info.edge.data.source ∧
        ¬ id = info.edge.data.target := by
  induction ve with
  | nil => simp [incCount]
  | cons info ve ih =>
    simp only [incCount, List.mem_cons, Nat.add_eq_zero,
      ite_one_zero_eq_zero]
    rw [ih]
    constructor
    · rintro ⟨⟨h1, h2⟩, h3⟩ i hi
      rcases hi with rfl | hm
      · exact ⟨h1, h2⟩
      · exact h3 i hm
    · intro h
      exact ⟨h info (Or.inl rfl), fun i hm => h i (Or.inr hm)⟩

/-- C3: in the assembly pass over a merged graph, a record holds zero
totalConnections exactly when its id is an endpoint of no accepted
(valid) edge, which is the orphan classification; and every orphan is
retained in the final node output, tagged with metadata.isOrphan. -/
theorem claim_C3_orphan_completeness (g : Graph) :
    (∀ id r, mapLookup (indexGraph g).1 id = some r →
      (r.totalConnections = 0 ↔
        ∀ info ∈ (indexGraph g).2,
          ¬ id = info.edge.data.source ∧
            ¬ id = info.edge.data.target)) ∧
    (∀ p ∈ (indexGraph g).1, p.2.totalConnections = 0 →
      setOrphanFlag p.2.node ∈ finalNodes (indexGraph g).1 ∧
        (setOrphanFlag p.2.node).data.metadata.isOrphan = true) := by
  constructor
  · intro id r h
    unfold indexGraph at h ⊢
    rw [processEdges_lookup] at h
    rcases Option.map_eq_some'.mp h with ⟨r0, hr0, hra⟩
    have hfresh := buildRecords_fresh g.nodes id r0 hr0
    have htot : r.totalConnections =
        incCount id (processEdges (buildRecords g.nodes) g.edges).2 := by
      rw [← hra, applyAll_total, hfresh.2.2]
      omega
    rw [htot]
    exact incCount_eq_zero id _
  · intro p hp hp0
    constructor
    · have hf : p ∈ (indexGraph g).1.filter
          (fun p => !(decide (0 < p.2.totalConnections))) :=
        List.mem_filter.mpr ⟨hp, by simp [hp0]⟩
      have h1 : p.2.node ∈ orphanNodes (indexGraph g).1 :=
        List.mem_map_of_mem (fun p => p.2.node) hf
      have h2 : setOrphanFlag p.2.node ∈
          (orphanNodes (indexGraph g).1).map setOrphanFlag :=
        List.mem_map_of_mem setOrphanFlag h1
      exact List.mem_append.mpr (Or.inr h2)
    · simp [setOrphanFlag]

/-- Witness instantiating C3 on the section-8 scenario graph: the
record of the isolated node D reports zero connections and indeed no
valid edge touches D. -/
theorem claim_C3_orphan_completeness_witness :
    (freshRecord nD).totalConnections = 0 ↔
      ∀ info ∈ (indexGraph gC3).2,
        ¬ "D" = info.edge.data.source ∧ ¬ "D" = info.edge.data.target :=
  (claim_C3_orphan_completeness gC3).1 "D" (freshRecord nD) (by decide)

/-- C5: every accepted edge info recorded in validEdges has both
endpoints among the node ids of the graph handed to the indexer, and an
edge with an unresolved endpoint is processed as a no-op: it changes no
record, joins validEdges nowhere, and the remaining edges are processed
as if it were absent. -/
theorem claim_C5_dropped_edge_safety (g : Graph) :
    (∀ info ∈ (indexGraph g).2,
      info.edge.data.source ∈ g.nodes.map (fun n => n.data.id) ∧
        info.edge.data.target ∈ g.nodes.map (fun n => n.data.id)) ∧
    (∀ (m : List (String × ConnectionRecord)) (e : Edge)
        (es : List Edge),
      (mapLookup m e.data.source = none ∨
        mapLookup m e.data.target = none) →
      processEdges m (e :: es) = processEdges m es) := by
  constructor
  · intro info hmem
    have h := processEdges_valid g.edges (buildRecords g.nodes) info hmem
    exact ⟨(buildRecords_isSome g.nodes _).mp h.1,
      (buildRecords_isSome g.nodes _).mp h.2.1⟩
  · intro m e es h
    apply processEdges_drop
    rintro ⟨h1, h2⟩
    rcases h with h | h
    · rw [h] at h1; simp at h1
    · rw [h] at h2; simp at h2

/-- Witness instantiating C5: with an empty record map the edge from A
to B cannot resolve its endpoints and processing it is a no-op. -/
theorem claim_C5_dropped_edge_safety_witness :
    processEdges [] [eAB] = processEdges [] [] :=
  (claim_C5_dropped_edge_safety gC3).2 [] eAB [] (Or.inl rfl)

theorem mem_setAdd (l : List String) (x y : String) :
    y ∈ setAdd l x ↔ y ∈ l ∨ y = x := by
  unfold setAdd
  by_cases h : x ∈ l
  · rw [if_pos h]
    constructor
    · exact Or.inl
    · rintro (h2 | rfl)
      exacts [h2, h]
  · rw [if_neg h]
    simp

theorem hlIn_spec (conns : List InConn) :
    ∀ (p : List String × List String) (y : String),
      (y ∈ (conns.foldl
          (fun p c => (setAdd p.1 c.sourceId, setAdd p.2 c.edgeId)) p).1 ↔
        y ∈ p.1 ∨ ∃ c ∈ conns, y = c.sourceId) ∧
      (y ∈ (conns.foldl
          (fun p c => (setAdd p.1 c.sourceId, setAdd p.2 c.edgeId)) p).2 ↔
        y ∈ p.2 ∨ ∃ c ∈ conns, y = c.edgeId) := by
  induction conns with
  | nil => intro p y; simp
  | cons c cs ih =>
    intro p y
    rw [List.foldl_cons]
    have h := ih (setAdd p.1 c.sourceId, setAdd p.2 c.edgeId) y
    constructor
    · rw [h.1]
      simp only [mem_setAdd, List.mem_cons]
      constructor
      · rintro ((hy | rfl) | ⟨c2, hc2, rfl⟩)
        · exact Or.inl hy
        · exact Or.inr ⟨c, Or.inl rfl, rfl⟩
        · exact Or.inr ⟨c2, Or.inr hc2, rfl⟩
      · rintro (hy | ⟨c2, (rfl | hc2), rfl⟩)
        · exact Or.inl (Or.inl hy)
        · exact Or.inl (Or.inr rfl)
        · exact Or.inr ⟨c2, hc2, rfl⟩
    · rw [h.2]
      simp only [mem_setAdd, List.mem_cons]
      constructor
      · rintro ((hy | rfl) | ⟨c2, hc2, rfl⟩)
        · exact Or.inl hy
        · exact Or.inr ⟨c, Or.inl rfl, rfl⟩
        · exact Or.inr ⟨c2, Or.inr hc2, rfl⟩
      · rintro (hy | ⟨c2, (rfl | hc2), rfl⟩)
        · exact Or.inl (Or.inl hy)
        · exact Or.inl (Or.inr rfl)
        · exact Or.inr ⟨c2, hc2, rfl⟩

theorem hlOut_spec (conns : List OutConn) :
    ∀ (p : List String × List String) (y : String),
      (y ∈ (conns.foldl
          (fun p c => (setAdd p.1 c.targetId, setAdd p.2 c.edgeId)) p).1 ↔
        y ∈ p.1 ∨ ∃ c ∈ conns, y = c.targetId) ∧
      (y ∈ (conns.foldl
          (fun p c => (setAdd p.1 c.targetId, setAdd p.2 c.edgeId)) p).2 ↔
        y ∈ p.2 ∨ ∃ c ∈ conns, y = c.edgeId) := by
  induction conns with
  | nil => intro p y; simp
  | cons c cs ih =>
    intro p y
    rw [List.foldl_cons]
    have h := ih (setAdd p.1 c.targetId, setAdd p.2 c.edgeId) y
    constructor
    · rw [h.1]
      simp only [mem_setAdd, List.mem_cons]
      constructor
      · rintro ((hy | rfl) | ⟨c2, hc2, rfl⟩)
        · exact Or.inl hy
        · exact Or.inr ⟨c, Or.inl rfl, rfl⟩
        · exact Or.inr ⟨c2, Or.inr hc2, rfl⟩
      · rintro (hy | ⟨c2, (rfl | hc2), rfl⟩)
        · exact Or.inl (Or.inl hy)
        · exact Or.inl (Or.inr rfl)
        · exact Or.inr ⟨c2, hc2, rfl⟩
    · rw [h.2]
      simp only [mem_setAdd, List.mem_cons]
      constructor
      · rintro ((hy | rfl) | ⟨c2, hc2, rfl⟩)
        · exact Or.inl hy
        · exact Or.inr ⟨c, Or.inl rfl, rfl⟩
        · exact Or.inr ⟨c2, Or.inr hc2, rfl⟩
      · rintro (hy | ⟨c2, (rfl | hc2), rfl⟩)
        · exact Or.inl (Or.inl hy)
        · exact Or.inl (Or.inr rfl)
        · exact Or.inr ⟨c2, hc2, rfl⟩

theorem highlight_none_endpoint (g : Graph) (s : String)
    (hl : mapLookup (indexGraph g).1 s = none) :
    ∀ info ∈ (indexGraph g).2,
      ¬ s = info.edge.data.source ∧ ¬ s = info.edge.data.target := by
  intro info hm
  unfold indexGraph at hl hm
  have hvalid := processEdges_valid g.edges (buildRecords g.nodes) info hm
  rw [processEdges_lookup] at hl
  have h0 : mapLookup (buildRecords g.nodes) s = none :=
    Option.map_eq_none'.mp hl
  constructor
  · intro hse
    have h1 := hvalid.1
    rw [← hse, h0] at h1
    simp at h1
  · intro hte
    have h1 := hvalid.2.1
    rw [← hte, h0] at h1
    simp at h1

theorem highlight_record (g : Graph) (s : String) (r : ConnectionRecord)
    (hl : mapLookup (indexGraph g).1 s = some r) :
    r.inbound = ((indexGraph g).2.filter
        (fun i => decide (s = i.edge.data.target))).map mkIn ∧
      r.outbound = ((indexGraph g).2.filter
        (fun i => decide (s = i.edge.data.source))).map mkOut := by
  unfold indexGraph at hl ⊢
  rw [processEdges_lookup] at hl
  rcases Option.map_eq_some'.mp hl with ⟨r0, hr0, hra⟩
  have hfresh := buildRecords_fresh g.nodes s r0 hr0
  constructor
  · rw [← hra, applyAll_inbound, hfresh.1, List.nil_append]
  · rw [← hra, applyAll_outbound, hfresh.2.1, List.nil_append]

theorem highlight_mem_nodes (g : Graph) (s : String) (hs : ¬ s = "")
    (u : String) :
    u ∈ (highlightSets (some s) (indexGraph g).1).1 ↔
      u = s ∨
        (∃ info ∈ (indexGraph g).2,
          s = info.edge.data.target ∧ u = info.edge.data.source) ∨
        (∃ info ∈ (indexGraph g).2,
          s = info.edge.data.source ∧ u = info.edge.data.target) := by
  cases hl : mapLookup (indexGraph g).1 s with
  | none =>
    have hnone := highlight_none_endpoint g s hl
    simp only [highlightSets, if_neg hs, hl, List.mem_singleton]
    constructor
    · exact Or.inl
    · rintro (h | ⟨info, hm, hq, -⟩ | ⟨info, hm, hq, -⟩)
      · exact h
      · exact absurd hq (hnone info hm).2
      · exact absurd hq (hnone info hm).1
  | some r =>
    obtain ⟨hin, hout⟩ := highlight_record g s r hl
    simp only [highlightSets, if_neg hs, hl]
    rw [(hlOut_spec r.outbound _ u).1, (hlIn_spec r.inbound ([s], []) u).1]
    rw [hin, hout]
    simp only [List.mem_singleton, List.mem_map, List.mem_filter,
      decide_eq_true_eq]
    constructor
    · rintro ((h | ⟨c, ⟨info, ⟨hm, hq⟩, rfl⟩, rfl⟩) |
        ⟨c, ⟨info, ⟨hm, hq⟩, rfl⟩, rfl⟩)
      · exact Or.inl h
      · exact Or.inr (Or.inl ⟨info, hm, hq, rfl⟩)
      · exact Or.inr (Or.inr ⟨info, hm, hq, rfl⟩)
    · rintro (rfl | ⟨info, hm, hq, rfl⟩ | ⟨info, hm, hq, rfl⟩)
      · exact Or.inl (Or.inl rfl)
      · exact Or.inl (Or.inr ⟨mkIn info, ⟨info, ⟨hm, hq⟩, rfl⟩, rfl⟩)
      · exact Or.inr ⟨mkOut info, ⟨info, ⟨hm, hq⟩, rfl⟩, rfl⟩

theorem highlight_mem_edges (g : Graph) (s : String) (hs : ¬ s = "")
    (eid : String) :
    eid ∈ (highlightSets (some s) (indexGraph g).1).2 ↔
      (∃ info ∈ (indexGraph g).2,
        s = info.edge.data.target ∧ eid = info.edge.data.id) ∨
      (∃ info ∈ (indexGraph g).2,
        s = info.edge.data.source ∧ eid = info.edge.data.id) := by
  cases hl : mapLookup (indexGraph g).1 s with
  | none =>
    have hnone := highlight_none_endpoint g s hl
    simp only [highlightSets, if_neg hs, hl, List.not_mem_nil,
      false_iff]
    rintro (⟨info, hm, hq, -⟩ | ⟨info, hm, hq, -⟩)
    · exact absurd hq (hnone info hm).2
    · exact absurd hq (hnone info hm).1
  | some r =>
    obtain ⟨hin, hout⟩ := highlight_record g s r hl
    simp only [highlightSets, if_neg hs, hl]
    rw [(hlOut_spec r.outbound _ eid).2,
      (hlIn_spec r.inbound ([s], []) eid).2]
    rw [hin, hout]
    simp only [List.not_mem_nil, List.mem_map, List.mem_filter,
      decide_eq_true_eq, false_or]
    constructor
    · rintro (⟨c, ⟨info, ⟨hm, hq⟩, rfl⟩, rfl⟩ |
        ⟨c, ⟨info, ⟨hm, hq⟩, rfl⟩, rfl⟩)
      · exact Or.inl ⟨info, hm, hq, rfl⟩
      · exact Or.inr ⟨info, hm, hq, rfl⟩
    · rintro (⟨info, hm, hq, rfl⟩ | ⟨info, hm, hq, rfl⟩)
      · exact Or.inl ⟨mkIn info, ⟨info, ⟨hm, hq⟩, rfl⟩, rfl⟩
      · exact Or.inr ⟨mkOut info, ⟨info, ⟨hm, hq⟩, rfl⟩, rfl⟩

/-- C6: with no selection both highlight sets are empty; with a
selected id s the highlighted nodes are exactly s together with the
sources of valid edges into s and the targets of valid edges out of s,
the highlighted edges are exactly the ids of those same one-hop edges,
and whenever a node is highlighted because of such an edge, that edge
id is highlighted too. -/
theorem claim_C6_selection_highlighter (g : Graph) (s : String)
    (hs : s ≠ "") :
    (highlightSets none (indexGraph g).1 = ([], [])) ∧
    (∀ u, u ∈ (highlightSets (some s) (indexGraph g).1).1 ↔
      u = s ∨
        (∃ info ∈ (indexGraph g).2,
          s = info.edge.data.target ∧ u = info.edge.data.source) ∨
        (∃ info ∈ (indexGraph g).2,
          s = info.edge.data.source ∧ u = info.edge.data.target)) ∧
    (∀ eid, eid ∈ (highlightSets (some s) (indexGraph g).1).2 ↔
      (∃ info ∈ (indexGraph g).2,
        s = info.edge.data.target ∧ eid = info.edge.data.id) ∨
      (∃ info ∈ (indexGraph g).2,
        s = info.edge.data.source ∧ eid = info.edge.data.id)) ∧
    (∀ info ∈ (indexGraph g).2,
      (s = info.edge.data.target →
        info.edge.data.source ∈
            (highlightSets (some s) (indexGraph g).1).1 ∧
          info.edge.data.id ∈
            (highlightSets (some s) (indexGraph g).1).2) ∧
      (s = info.edge.data.source →
        info.edge.data.target ∈
            (highlightSets (some s) (indexGraph g).1).1 ∧
          info.edge.data.id ∈
            (highlightSets (some s) (indexGraph g).1).2)) := by
  refine ⟨rfl, highlight_mem_nodes g s hs, highlight_mem_edges g s hs,
    ?_⟩
  intro info hm
  constructor
  · intro hq
    exact ⟨(highlight_mem_nodes g s hs _).mpr
        (Or.inr (Or.inl ⟨info, hm, hq, rfl⟩)),
      (highlight_mem_edges g s hs _).mpr (Or.inl ⟨info, hm, hq, rfl⟩)⟩
  · intro hq
    exact ⟨(highlight_mem_nodes g s hs _).mpr
        (Or.inr (Or.inr ⟨info, hm, hq, rfl⟩)),
      (highlight_mem_edges g s hs _).mpr (Or.inr ⟨info, hm, hq, rfl⟩)⟩

/-- Witness instantiating C6 on the section-8 scenario graph after
selecting B: node A and the edge from A to B are highlighted because
the direct edge A to B reaches the selection in one hop. -/
theorem claim_C6_selection_highlighter_witness :
    "A" ∈ (highlightSets (some "B") (indexGraph gC3).1).1 ∧
      "eAB" ∈ (highlightSets (some "B") (indexGraph gC3).1).2 :=
  ((claim_C6_selection_highlighter gC3 "B" (by decide)).2.2.2
    (mkEdgeInfo eAB) (by decide)).1 (by decide)

end MCExplorer
